import Mathlib

/-!
Shallow embedding of the local history store and view-synchronization logic
of the chat client (src/index.tsx, with the earlier variant in
src/unnamed/part_000).  The embedded core is: the in-memory `history` array
of `HistoryItem`s, the `currentViewedId` selection pointer, the mutation
functions `viewHistoryItem`, `deleteHistoryItem`, `clearAllHistory`,
`resetUI`, the submit handler's record-creation path, the history-list
sort order, the prompt truncation of the part_000 variant, and the
`localStorage` + `JSON.stringify` / `JSON.parse` persistence layer.
DOM rendering, highlighting and the network call are outside the core and
are not modelled.
-/

/-- A web-search citation, src/index.tsx lines 8-11. -/
structure Source where
  uri : String
  title : String
deriving DecidableEq, Repr

/-- One finished prompt/response exchange, src/index.tsx lines 13-19.
`sources` is the optional citation list (`sources?: Source[]`);
`timestamp` is `Date.now()` milliseconds, a non-negative integer. -/
structure HistoryItem where
  id : String
  prompt : String
  response : String
  sources : Option (List Source)
  timestamp : Nat
deriving DecidableEq, Repr

/-! ### Decimal rendering of numbers

`Date.now().toString()` (src/index.tsx line 282) and the number output of
`JSON.stringify` render a non-negative integer in decimal.  We model that
rendering directly. -/

/-- The decimal digit character for `n < 10`. -/
def digitChar (n : Nat) : Char := Char.ofNat (48 + n)

/-- Fuel-bounded decimal rendering; `fuel > n` always suffices because the
quotient shrinks on every step. -/
def natDigitsAux : Nat → Nat → List Char
  | 0, _ => []
  | fuel + 1, n =>
    if n < 10 then [digitChar n]
    else natDigitsAux fuel (n / 10) ++ [digitChar (n % 10)]

/-- Decimal digit string of a natural number, most significant first,
as produced by JavaScript `Number.prototype.toString()` on an integer. -/
def natDigits (n : Nat) : List Char := natDigitsAux (n + 1) n

/-- `Date.now().toString()`: decimal string of the clock value. -/
def natToStr (n : Nat) : String := String.mk (natDigits n)

/-! ### The mutable core state and its operations -/

/-- The core mutable state of `initApp`: the in-memory `history` array
(src/index.tsx line 59) and the `currentViewedId` pointer (line 60);
`none` models the JavaScript `null`. -/
structure AppState where
  history : List HistoryItem
  currentViewedId : Option String
deriving DecidableEq, Repr

/-- `resetUI` (src/index.tsx lines 138-143): clears the selection.
The DOM writes (placeholder, status text) are outside the embedded state. -/
def resetUI (s : AppState) : AppState :=
  { s with currentViewedId := none }

/-- `viewHistoryItem(id)` (src/index.tsx lines 102-120): if a record with
this `id` is found, the selection is set to it; otherwise nothing happens. -/
def viewHistoryItem (id : String) (s : AppState) : AppState :=
  if (s.history.find? (fun h => h.id = id)).isSome then
    { s with currentViewedId := some id }
  else s

/-- `deleteHistoryItem(id)` (src/index.tsx lines 122-127) when the
`localStorage.setItem` on line 124 succeeds: removes every record whose id
equals `id`, and if the deleted id was the selected one, `resetUI()`
clears the selection in the same handler invocation. -/
def deleteHistoryItem (id : String) (s : AppState) : AppState :=
  let s' := { s with history := s.history.filter (fun h => h.id ≠ id) }
  if s'.currentViewedId = some id then resetUI s' else s'

/-- `deleteHistoryItem(id)` with the line-124 write outcome explicit: the
filter on line 123 has already replaced `history` when `setItem` runs, so
a throwing write (`writeOk = false`) leaves the filtered history behind
and skips the line-125 selection reset — the state the closure variables
hold when the exception escapes the click handler. -/
def deleteHistoryItemW (id : String) (writeOk : Bool) (s : AppState) : AppState :=
  let s' := { s with history := s.history.filter (fun h => h.id ≠ id) }
  if writeOk then (if s'.currentViewedId = some id then resetUI s' else s') else s'

/-- `clearAllHistory` (src/index.tsx lines 129-136): asks the user via
`confirm(...)`; only when the dialog is confirmed does it empty the store
and reset the selection.  `confirmed` is the dialog's answer. -/
def clearAllHistory (confirmed : Bool) (s : AppState) : AppState :=
  if confirmed then resetUI { s with history := [] } else s

/-- The new `HistoryItem` built on a successful submit
(src/index.tsx lines 281-287).  `id` comes from the first `Date.now()`
read (`nowId`), `timestamp` from the second (`nowTs`); `sources` is kept
only when non-empty (`sources.length > 0 ? sources : undefined`). -/
def mkHistoryItem (prompt response : String) (sources : List Source)
    (nowId nowTs : Nat) : HistoryItem :=
  { id := natToStr nowId
    prompt := prompt
    response := response
    sources := if sources.length > 0 then some sources else none
    timestamp := nowTs }

/-- The synchronous head of the submit handler (src/index.tsx line 243):
`currentViewedId = null` before the request is sent. -/
def submitStart (s : AppState) : AppState :=
  { s with currentViewedId := none }

/-- The tail of the submit handler after a successful response
(src/index.tsx lines 281-289): the new record is pushed onto `history`.
The selection is not touched on this path. -/
def submitComplete (prompt response : String) (sources : List Source)
    (nowId nowTs : Nat) (s : AppState) : AppState :=
  { s with history := s.history ++ [mkHistoryItem prompt response sources nowId nowTs] }

/-- The discrete events that mutate the core state.  Each constructor
carries the environmental inputs of its handler (ids clicked, the
`confirm` dialog answer, the delete write's outcome, the response text
and the clock readings).  `clearAll` uses `removeItem`, which never
throws, and the submit write failure is caught with the record already
pushed, so only `deleteItem` carries a write outcome that can change the
resulting state. -/
inductive Op where
  | view (id : String)
  | deleteItem (id : String) (writeOk : Bool)
  | clearAll (confirmed : Bool)
  | newChat
  | submitStart
  | submitComplete (prompt response : String) (sources : List Source) (nowId nowTs : Nat)
deriving Repr

/-- One event-handler invocation: the state the closure variables hold
after the handler returns — or, for a delete whose write throws, when the
exception escapes it. -/
def step (o : Op) (s : AppState) : AppState :=
  match o with
  | .view id => viewHistoryItem id s
  | .deleteItem id w => deleteHistoryItemW id w s
  | .clearAll c => clearAllHistory c s
  | .newChat => resetUI s
  | .submitStart => submitStart s
  | .submitComplete p r src n₁ n₂ => submitComplete p r src n₁ n₂ s

/-- Whether the event's storage write (if it has an uncaught one)
succeeded. -/
def opWriteOk : Op → Bool
  | .deleteItem _ w => w
  | _ => true

/-- A sequence of event-handler invocations, oldest first. -/
def run (ops : List Op) (s : AppState) : AppState :=
  ops.foldl (fun s o => step o s) s

/-- The state right after `initApp` initialises its locals
(src/index.tsx lines 59-60): `history` is whatever was loaded from
storage, `currentViewedId` is `null`. -/
def initState (h : List HistoryItem) : AppState :=
  { history := h, currentViewedId := none }

/-- The selection never dangles: if `currentViewedId` is set, a record
with that id is in the store. -/
def SelectionValid (s : AppState) : Prop :=
  ∀ x, s.currentViewedId = some x → ∃ r ∈ s.history, r.id = x

instance (s : AppState) : Decidable (SelectionValid s) := by
  unfold SelectionValid
  cases h : s.currentViewedId with
  | none => exact .isTrue (by simp)
  | some x =>
    exact decidable_of_iff (∃ r ∈ s.history, r.id = x)
      ⟨fun hx y hy => by cases hy; exact hx, fun hall => hall x rfl⟩

/-! ### The history-list sort order

`renderHistoryList` (src/index.tsx line 71, src/unnamed/part_000 line 42)
displays `[...history].sort((a, b) => b.timestamp - a.timestamp)`.
`Array.prototype.sort` is stable (ECMAScript 2019), so the result is the
unique permutation that is non-increasing in `timestamp` and keeps the
original relative order of records with equal timestamps.  We model it as
a stable insertion sort for that comparator. -/

/-- Insert `x` after every already-placed record whose timestamp is at
least `x`'s (the stable position for a descending sort). -/
def insertDesc (x : HistoryItem) : List HistoryItem → List HistoryItem
  | [] => [x]
  | h :: t => if x.timestamp > h.timestamp then x :: h :: t else h :: insertDesc x t

/-- The display order of the history list: stable sort, descending by
`timestamp`. -/
def sortedHistory (l : List HistoryItem) : List HistoryItem :=
  l.foldl (fun acc x => insertDesc x acc) []

/-! ### The part_000 display label (UTF-16 code-unit truncation)

`src/unnamed/part_000` line 47 renders
`item.prompt.length > 30 ? item.prompt.substring(0, 30) + '...' : item.prompt`.
JavaScript `String.prototype.length` and `substring` work on UTF-16 code
units, so we model a JS string as its list of UTF-16 code units. -/

/-- UTF-16 encoding of one Unicode scalar value: one code unit for the
basic plane, a surrogate pair for supplementary planes. -/
def utf16Units (c : Char) : List Nat :=
  if c.toNat < 0x10000 then [c.toNat]
  else
    let v := c.toNat - 0x10000
    [0xD800 + v / 0x400, 0xDC00 + v % 0x400]

/-- The UTF-16 code-unit sequence of a scalar-value sequence. -/
def utf16OfChars (l : List Char) : List Nat := l.flatMap utf16Units

/-- The UTF-16 code-unit sequence of a string (what JavaScript indexes). -/
def utf16Str (s : String) : List Nat := utf16OfChars s.data

/-- The code units of `'...'` (three U+002E FULL STOP). -/
def ellipsisUnits : List Nat := [46, 46, 46]

/-- The part_000 history-list label of a prompt, as its UTF-16 code-unit
sequence: `prompt.length > 30 ? prompt.substring(0, 30) + '...' : prompt`
(src/unnamed/part_000 line 47). -/
def displayLabel (prompt : String) : List Nat :=
  if 30 < (utf16Str prompt).length then (utf16Str prompt).take 30 ++ ellipsisUnits
  else utf16Str prompt

/-- The index.tsx history-list label: `btn.textContent = item.prompt`
(src/index.tsx line 79) — the full prompt, no truncation. -/
def displayLabelMain (prompt : String) : List Nat := utf16Str prompt

/-! ### Arithmetic facts about the decimal rendering -/

/-- JSON / JavaScript digit test: `'0' ≤ c ≤ '9'`. -/
def isDigitChar (c : Char) : Bool := 48 ≤ c.toNat && c.toNat ≤ 57

/-- Reading a digit string back as a number, most significant first. -/
def digitsToNat (l : List Char) : Nat :=
  l.foldl (fun a c => 10 * a + (c.toNat - 48)) 0

theorem toNat_digitChar {d : Nat} (h : d < 10) : (digitChar d).toNat = 48 + d := by
  interval_cases d <;> rfl

theorem isDigitChar_digitChar {d : Nat} (h : d < 10) : isDigitChar (digitChar d) = true := by
  simp [isDigitChar, toNat_digitChar h]; omega

theorem natDigitsAux_congr : ∀ f₁ f₂ n, n < f₁ → n < f₂ →
    natDigitsAux f₁ n = natDigitsAux f₂ n := by
  intro f₁
  induction f₁ with
  | zero => intro f₂ n h; omega
  | succ f ih =>
    intro f₂ n h₁ h₂
    cases f₂ with
    | zero => omega
    | succ g =>
      simp only [natDigitsAux]
      by_cases hn : n < 10
      · simp [hn]
      · simp only [hn, if_false]
        have hlt : n / 10 < n := Nat.div_lt_self (by omega) (by omega)
        rw [ih g (n / 10) (by omega) (by omega)]

/-- The defining recurrence of `natDigits`, independent of fuel. -/
theorem natDigits_eq (n : Nat) :
    natDigits n = if n < 10 then [digitChar n]
                  else natDigits (n / 10) ++ [digitChar (n % 10)] := by
  by_cases hn : n < 10
  · simp [natDigits, natDigitsAux, hn]
  · have hlt : n / 10 < n := Nat.div_lt_self (by omega) (by omega)
    rw [if_neg hn]
    have h1 : natDigits n = natDigitsAux n (n / 10) ++ [digitChar (n % 10)] := by
      simp only [natDigits, natDigitsAux, hn, if_false]
    rw [h1, natDigitsAux_congr n (n / 10 + 1) (n / 10) (by omega) (by omega)]
    rfl

theorem natDigits_ne_nil (n : Nat) : natDigits n ≠ [] := by
  rw [natDigits_eq]
  by_cases hn : n < 10 <;> simp [hn]

theorem mem_natDigits_isDigit (n : Nat) : ∀ c ∈ natDigits n, isDigitChar c = true := by
  induction n using Nat.strong_induction_on with
  | _ n ih =>
    rw [natDigits_eq]
    by_cases hn : n < 10
    · simp only [hn, if_true, List.mem_singleton]
      rintro c rfl
      exact isDigitChar_digitChar hn
    · simp only [hn, if_false, List.mem_append, List.mem_singleton]
      rintro c (hc | rfl)
      · exact ih (n / 10) (Nat.div_lt_self (by omega) (by omega)) c hc
      · exact isDigitChar_digitChar (Nat.mod_lt _ (by omega))

theorem digitsToNat_natDigits (n : Nat) : digitsToNat (natDigits n) = n := by
  induction n using Nat.strong_induction_on with
  | _ n ih =>
    rw [natDigits_eq]
    by_cases hn : n < 10
    · simp [hn, digitsToNat, toNat_digitChar hn]
    · have hlt : n / 10 < n := Nat.div_lt_self (by omega) (by omega)
      simp only [hn, if_false, digitsToNat, List.foldl_append, List.foldl_cons,
        List.foldl_nil]
      have := ih (n / 10) hlt
      simp only [digitsToNat] at this
      rw [this, toNat_digitChar (Nat.mod_lt _ (by omega))]
      omega

theorem natToStr_injective : Function.Injective natToStr := by
  intro m n h
  have hd : natDigits m = natDigits n := congrArg String.data h
  have := digitsToNat_natDigits m
  rw [hd, digitsToNat_natDigits] at this
  omega

/-! ### Preservation of the selection invariant -/

theorem run_nil (s : AppState) : run [] s = s := rfl

theorem run_cons (o : Op) (ops : List Op) (s : AppState) :
    run (o :: ops) s = run ops (step o s) := rfl

/-- Unfolded form of `deleteHistoryItem` (the filtered list does not change
the selection, so checking the selection after the filter is the same as
checking it before). -/
theorem deleteHistoryItem_def (id : String) (s : AppState) :
    deleteHistoryItem id s =
      if s.currentViewedId = some id then
        { history := s.history.filter (fun h => h.id ≠ id), currentViewedId := none }
      else { s with history := s.history.filter (fun h => h.id ≠ id) } := by
  unfold deleteHistoryItem resetUI
  dsimp only

theorem selectionValid_resetUI (s : AppState) : SelectionValid (resetUI s) := by
  intro x hx
  simp [resetUI] at hx

theorem selectionValid_view (id : String) (s : AppState)
    (hs : SelectionValid s) : SelectionValid (viewHistoryItem id s) := by
  unfold viewHistoryItem
  split
  · next hfind =>
    intro x hx
    obtain ⟨a, ha⟩ := Option.isSome_iff_exists.mp hfind
    have hmem := List.mem_of_find?_eq_some ha
    have hp := List.find?_some ha
    simp only at hx
    cases hx
    exact ⟨a, hmem, by simpa using hp⟩
  · exact hs

theorem selectionValid_delete (id : String) (s : AppState)
    (hs : SelectionValid s) : SelectionValid (deleteHistoryItem id s) := by
  rw [deleteHistoryItem_def]
  split
  · intro x hx
    simp at hx
  · next hne =>
    intro x hx
    simp only at hx
    obtain ⟨r, hr, hid⟩ := hs x hx
    refine ⟨r, ?_, hid⟩
    simp only [List.mem_filter, decide_eq_true_eq]
    refine ⟨hr, fun hrid => hne ?_⟩
    rw [hx, ← hid, hrid]

theorem selectionValid_clearAll (c : Bool) (s : AppState)
    (hs : SelectionValid s) : SelectionValid (clearAllHistory c s) := by
  unfold clearAllHistory
  split
  · exact selectionValid_resetUI _
  · exact hs

theorem selectionValid_submitStart (s : AppState) :
    SelectionValid (submitStart s) := by
  intro x hx
  simp [submitStart] at hx

theorem selectionValid_submitComplete (p r : String) (src : List Source)
    (n₁ n₂ : Nat) (s : AppState) (hs : SelectionValid s) :
    SelectionValid (submitComplete p r src n₁ n₂ s) := by
  intro x hx
  simp only [submitComplete] at hx
  obtain ⟨rec, hrec, hid⟩ := hs x hx
  exact ⟨rec, List.mem_append_left _ hrec, hid⟩

/-- With a succeeding write, the write-outcome-aware delete coincides
with the success-path `deleteHistoryItem`. -/
theorem deleteHistoryItemW_true (id : String) (s : AppState) :
    deleteHistoryItemW id true s = deleteHistoryItem id s := rfl

/-- An event whose uncaught storage write (if any) succeeds preserves the
selection invariant. -/
theorem selectionValid_step (o : Op) (s : AppState) (ho : opWriteOk o = true)
    (hs : SelectionValid s) : SelectionValid (step o s) := by
  cases o with
  | view id => exact selectionValid_view id s hs
  | deleteItem id w =>
    have hw : w = true := ho
    subst hw
    rw [show step (Op.deleteItem id true) s = deleteHistoryItem id s from rfl]
    exact selectionValid_delete id s hs
  | clearAll c => exact selectionValid_clearAll c s hs
  | newChat => exact selectionValid_resetUI s
  | submitStart => exact selectionValid_submitStart s
  | submitComplete p r src n₁ n₂ => exact selectionValid_submitComplete p r src n₁ n₂ s hs

/-- The selection invariant is preserved along any run all of whose
uncaught storage writes succeed. -/
theorem selectionValid_run (ops : List Op) (s : AppState)
    (hok : ∀ o ∈ ops, opWriteOk o = true)
    (hs : SelectionValid s) : SelectionValid (run ops s) := by
  induction ops generalizing s with
  | nil => exact hs
  | cons o ops ih =>
    exact run_cons o ops s ▸
      ih (step o s) (fun o' ho' => hok o' (List.mem_cons_of_mem o ho'))
        (selectionValid_step o s (hok o (List.mem_cons_self o ops)) hs)

theorem selectionValid_initState (h : List HistoryItem) :
    SelectionValid (initState h) := by
  intro x hx
  simp [initState] at hx

/-! ### Facts about the display sort -/

theorem insertDesc_perm (x : HistoryItem) (l : List HistoryItem) :
    (insertDesc x l).Perm (x :: l) := by
  induction l with
  | nil => exact List.Perm.refl _
  | cons h t ih =>
    unfold insertDesc
    split
    · exact List.Perm.refl _
    · exact (ih.cons h).trans (List.Perm.swap x h t)

theorem mem_insertDesc {x y : HistoryItem} {l : List HistoryItem} :
    y ∈ insertDesc x l ↔ y = x ∨ y ∈ l := by
  rw [(insertDesc_perm x l).mem_iff]
  simp

theorem insertDesc_sorted (x : HistoryItem) (l : List HistoryItem)
    (hl : l.Pairwise (fun a b => b.timestamp ≤ a.timestamp)) :
    (insertDesc x l).Pairwise (fun a b => b.timestamp ≤ a.timestamp) := by
  induction l with
  | nil => simp [insertDesc]
  | cons h t ih =>
    rw [List.pairwise_cons] at hl
    unfold insertDesc
    split
    · next hgt =>
      refine List.pairwise_cons.mpr ⟨?_, List.pairwise_cons.mpr hl⟩
      intro b hb
      rcases List.mem_cons.mp hb with rfl | hbt
      · omega
      · have := hl.1 b hbt
        omega
    · next hle =>
      refine List.pairwise_cons.mpr ⟨?_, ih hl.2⟩
      intro b hb
      rcases mem_insertDesc.mp hb with rfl | hb
      · omega
      · exact hl.1 b hb

theorem sortedHistory_perm (l : List HistoryItem) : (sortedHistory l).Perm l := by
  suffices h : ∀ acc : List HistoryItem,
      (l.foldl (fun acc x => insertDesc x acc) acc).Perm (acc ++ l) by
    simpa using h []
  induction l with
  | nil => simp
  | cons x t ih =>
    intro acc
    rw [List.foldl_cons]
    have h1 : (t.foldl (fun acc x => insertDesc x acc) (insertDesc x acc)).Perm
        (insertDesc x acc ++ t) := ih (insertDesc x acc)
    have h2 : (insertDesc x acc ++ t).Perm ((x :: acc) ++ t) :=
      (insertDesc_perm x acc).append_right t
    have h3 : ((x :: acc) ++ t).Perm (acc ++ x :: t) := List.perm_middle.symm
    exact (h1.trans h2).trans h3

theorem sortedHistory_sorted (l : List HistoryItem) :
    (sortedHistory l).Pairwise (fun a b => b.timestamp ≤ a.timestamp) := by
  suffices h : ∀ acc : List HistoryItem,
      acc.Pairwise (fun a b => b.timestamp ≤ a.timestamp) →
      (l.foldl (fun acc x => insertDesc x acc) acc).Pairwise
        (fun a b => b.timestamp ≤ a.timestamp) by
    exact h [] (by simp)
  induction l with
  | nil => intro acc hacc; simpa using hacc
  | cons x t ih =>
    intro acc hacc
    rw [List.foldl_cons]
    exact ih (insertDesc x acc) (insertDesc_sorted x acc hacc)

/-! ### Sequences of completed exchanges -/

/-- The environmental inputs of one completed exchange: the submitted
prompt, the response text, the extracted citations, and the two
`Date.now()` readings of src/index.tsx lines 282 and 286. -/
structure ExchangeCall where
  prompt : String
  response : String
  sources : List Source
  nowId : Nat
  nowTs : Nat

/-- The event of recording this completed exchange. -/
def ExchangeCall.toOp (c : ExchangeCall) : Op :=
  .submitComplete c.prompt c.response c.sources c.nowId c.nowTs

/-- The record this completed exchange constructs. -/
def ExchangeCall.toItem (c : ExchangeCall) : HistoryItem :=
  mkHistoryItem c.prompt c.response c.sources c.nowId c.nowTs

theorem run_submits_history (calls : List ExchangeCall) (s : AppState) :
    (run (calls.map ExchangeCall.toOp) s).history =
      s.history ++ calls.map ExchangeCall.toItem := by
  induction calls generalizing s with
  | nil => simp [run]
  | cons c t ih =>
    rw [List.map_cons, run_cons, ih]
    simp [step, ExchangeCall.toOp, submitComplete, ExchangeCall.toItem]

/-! ### UTF-16 facts for the display label -/

/-- A scalar value is never in the surrogate range, so the final code unit
of a (completed) encoding is never a high surrogate. -/
theorem utf16Units_getLast_not_high (c : Char) (u : Nat)
    (h : (utf16Units c).getLast? = some u) : ¬ (0xD800 ≤ u ∧ u < 0xDC00) := by
  have hvalid : c.toNat < 0xD800 ∨ (0xDFFF < c.toNat ∧ c.toNat < 0x110000) := c.valid
  unfold utf16Units at h
  split at h
  · next hlt =>
    simp [List.getLast?] at h
    omega
  · next hge =>
    simp [List.getLast?] at h
    omega

theorem utf16OfChars_getLast_not_high (l : List Char) (u : Nat)
    (h : (utf16OfChars l).getLast? = some u) : ¬ (0xD800 ≤ u ∧ u < 0xDC00) := by
  induction l with
  | nil => simp [utf16OfChars] at h
  | cons c t ih =>
    have hcons : utf16OfChars (c :: t) = utf16Units c ++ utf16OfChars t := by
      simp [utf16OfChars]
    by_cases ht : utf16OfChars t = []
    · rw [hcons, ht, List.append_nil] at h
      exact utf16Units_getLast_not_high c u h
    · rw [hcons, List.getLast?_append_of_ne_nil _ ht] at h
      exact ih h

/-! ### The persistence layer: JSON

`localStorage` stores one string under the key `gemini_chat_history`.
The app writes `JSON.stringify(history)` (src/index.tsx line 289) and
reads `JSON.parse(localStorage.getItem('gemini_chat_history') || '[]')`
(src/index.tsx line 59).  We model the ECMAScript JSON value space and
the serializer/parser pair on the fragment the application exercises
(numbers are the non-negative integers that `Date.now()` produces). -/

inductive Json where
  | null
  | bool (b : Bool)
  | num (n : Nat)
  | str (s : String)
  | arr (elems : List Json)
  | obj (members : List (String × Json))

/-- Lowercase hexadecimal digit, as in the ECMAScript JSON serializer. -/
def hexDigitChar (n : Nat) : Char :=
  if n < 10 then Char.ofNat (48 + n) else Char.ofNat (87 + n)

/-- `QuoteJSONString`'s escaping of one character: `\"` and `\\`, the short
escapes for backspace, tab, newline, form feed and carriage return, `\u00xx`
for the other control characters, and every other character literally. -/
def escChar (c : Char) : List Char :=
  if c = '"' then '\\' :: ['"']
  else if c = '\\' then '\\' :: ['\\']
  else if c.toNat = 8 then '\\' :: ['b']
  else if c.toNat = 9 then '\\' :: ['t']
  else if c.toNat = 10 then '\\' :: ['n']
  else if c.toNat = 12 then '\\' :: ['f']
  else if c.toNat = 13 then '\\' :: ['r']
  else if c.toNat < 32 then
    '\\' :: 'u' :: '0' :: '0' :: hexDigitChar (c.toNat / 16) :: [hexDigitChar (c.toNat % 16)]
  else [c]

/-- A serialized JSON string literal, quotes included. -/
def quoteString (s : String) : List Char :=
  '"' :: (s.data.flatMap escChar ++ ['"'])

mutual
/-- The characters `JSON.stringify` produces for a value (no spacing). -/
def jsonEmit : Json → List Char
  | .null => 'n' :: 'u' :: 'l' :: ['l']
  | .bool true => 't' :: 'r' :: 'u' :: ['e']
  | .bool false => 'f' :: 'a' :: 'l' :: 's' :: ['e']
  | .num n => natDigits n
  | .str s => quoteString s
  | .arr xs => '[' :: emitArrBody xs
  | .obj ms => '{' :: emitObjBody ms

/-- The part of a serialized array after the opening bracket. -/
def emitArrBody : List Json → List Char
  | [] => [']']
  | x :: t => jsonEmit x ++ emitArrRest t

/-- The part of a serialized array after an element: `,` more or `]`. -/
def emitArrRest : List Json → List Char
  | [] => [']']
  | x :: t => ',' :: (jsonEmit x ++ emitArrRest t)

/-- One serialized object member, `"key":value`. -/
def emitMember : String × Json → List Char
  | (k, v) => quoteString k ++ (':' :: jsonEmit v)

/-- The part of a serialized object after the opening brace. -/
def emitObjBody : List (String × Json) → List Char
  | [] => ['}']
  | m :: t => emitMember m ++ emitObjRest t

/-- The part of a serialized object after a member: `,` more or `}`. -/
def emitObjRest : List (String × Json) → List Char
  | [] => ['}']
  | m :: t => ',' :: (emitMember m ++ emitObjRest t)
end

/-- `JSON.stringify` (no spacing argument). -/
def stringify (j : Json) : String := String.mk (jsonEmit j)

/-- JSON insignificant whitespace: space, tab, line feed, carriage return. -/
def isWsChar (c : Char) : Bool :=
  c.toNat = 32 || c.toNat = 9 || c.toNat = 10 || c.toNat = 13

def skipWs (cs : List Char) : List Char := cs.dropWhile isWsChar

/-- Value of one hexadecimal digit, either case. -/
def hexVal (c : Char) : Option Nat :=
  if 48 ≤ c.toNat ∧ c.toNat ≤ 57 then some (c.toNat - 48)
  else if 97 ≤ c.toNat ∧ c.toNat ≤ 102 then some (c.toNat - 87)
  else if 65 ≤ c.toNat ∧ c.toNat ≤ 70 then some (c.toNat - 55)
  else none

/-- The body of a JSON string literal after the opening quote: the decoded
characters and the input after the closing quote. -/
def parseStringBody : List Char → Except Unit (List Char × List Char)
  | [] => .error ()
  | c :: rest =>
    if c = '"' then .ok ([], rest)
    else if c = '\\' then
      match rest with
      | [] => .error ()
      | e :: rest2 =>
        if e = 'u' then
          match rest2 with
          | h₁ :: h₂ :: h₃ :: h₄ :: rest3 =>
            (match hexVal h₁, hexVal h₂, hexVal h₃, hexVal h₄ with
             | some a, some b, some c, some d =>
               (parseStringBody rest3).map
                 (fun q => (Char.ofNat (((a * 16 + b) * 16 + c) * 16 + d) :: q.1, q.2))
             | _, _, _, _ => .error ())
          | _ => .error ()
        else if e = '"' then (parseStringBody rest2).map (fun q => ('"' :: q.1, q.2))
        else if e = '\\' then (parseStringBody rest2).map (fun q => ('\\' :: q.1, q.2))
        else if e = '/' then (parseStringBody rest2).map (fun q => ('/' :: q.1, q.2))
        else if e = 'b' then (parseStringBody rest2).map (fun q => (Char.ofNat 8 :: q.1, q.2))
        else if e = 'f' then (parseStringBody rest2).map (fun q => (Char.ofNat 12 :: q.1, q.2))
        else if e = 'n' then (parseStringBody rest2).map (fun q => (Char.ofNat 10 :: q.1, q.2))
        else if e = 'r' then (parseStringBody rest2).map (fun q => (Char.ofNat 13 :: q.1, q.2))
        else if e = 't' then (parseStringBody rest2).map (fun q => (Char.ofNat 9 :: q.1, q.2))
        else .error ()
    else (parseStringBody rest).map (fun q => (c :: q.1, q.2))

/-- A JSON number of the fragment the app stores: one or more digits. -/
def parseNumber (cs : List Char) : Except Unit (Nat × List Char) :=
  match cs.takeWhile isDigitChar with
  | [] => .error ()
  | ds => .ok (digitsToNat ds, cs.dropWhile isDigitChar)

/-- Consume an expected literal tail such as `ull` of `null`. -/
def dropLit : List Char → List Char → Except Unit (List Char)
  | [], cs => .ok cs
  | p :: ps, c :: cs => if c = p then dropLit ps cs else .error ()
  | _ :: _, [] => .error ()

/-- The three mutually recursive procedures of the JSON parser at one
recursion depth. -/
structure JParsers where
  val : List Char → Except Unit (Json × List Char)
  arrTail : List Char → Except Unit (List Json × List Char)
  objTail : List Char → Except Unit (List (String × Json) × List Char)

/-- `"key": value` member, given the value parser of the next depth. -/
def parseMember (pv : List Char → Except Unit (Json × List Char)) (cs : List Char) :
    Except Unit ((String × Json) × List Char) :=
  match skipWs cs with
  | '"' :: rest =>
    (match parseStringBody rest with
     | .ok (k, r2) =>
       (match skipWs r2 with
        | ':' :: r3 => (pv r3).map (fun q => ((String.mk k, q.1), q.2))
        | _ => .error ())
     | .error _ => .error ())
  | _ => .error ()

/-- The recursive-descent JSON parser, by fuel.  Every recursive call
consumes at least one character first, so fuel exceeding the input length
never runs out. -/
def mkJParsers : Nat → JParsers
  | 0 => ⟨fun _ => .error (), fun _ => .error (), fun _ => .error ()⟩
  | fuel + 1 =>
    let p := mkJParsers fuel
    { val := fun cs =>
        match skipWs cs with
        | [] => .error ()
        | c :: rest =>
          if c = '"' then (parseStringBody rest).map (fun q => (.str (String.mk q.1), q.2))
          else if c = 'n' then (dropLit ('u' :: 'l' :: ['l']) rest).map (fun r => (.null, r))
          else if c = 't' then (dropLit ('r' :: 'u' :: ['e']) rest).map (fun r => (.bool true, r))
          else if c = 'f' then (dropLit ('a' :: 'l' :: 's' :: ['e']) rest).map (fun r => (.bool false, r))
          else if c = '[' then
            match skipWs rest with
            | ']' :: r2 => .ok (.arr [], r2)
            | r2 => do
              let (x, r3) ← p.val r2
              let (xs, r4) ← p.arrTail r3
              .ok (.arr (x :: xs), r4)
          else if c = '{' then
            match skipWs rest with
            | '}' :: r2 => .ok (.obj [], r2)
            | r2 => do
              let (kv, r3) ← parseMember p.val r2
              let (ms, r4) ← p.objTail r3
              .ok (.obj (kv :: ms), r4)
          else (parseNumber (c :: rest)).map (fun q => (.num q.1, q.2))
      arrTail := fun cs =>
        match skipWs cs with
        | ']' :: rest => .ok ([], rest)
        | ',' :: rest => do
          let (x, r2) ← p.val rest
          let (xs, r3) ← p.arrTail r2
          .ok (x :: xs, r3)
        | _ => .error ()
      objTail := fun cs =>
        match skipWs cs with
        | '}' :: rest => .ok ([], rest)
        | ',' :: rest => do
          let (kv, r2) ← parseMember p.val rest
          let (ms, r3) ← p.objTail r2
          .ok (kv :: ms, r3)
        | _ => .error () }

/-- `JSON.parse`: parse the whole string, allowing trailing whitespace
only; anything else raises (modelled by `.error`). -/
def parseJson (s : String) : Except Unit Json :=
  match (mkJParsers (s.length + 1)).val s.data with
  | .ok (j, rest) => if skipWs rest = [] then .ok j else .error ()
  | .error _ => .error ()

/-- The initial load, src/index.tsx line 59:
`JSON.parse(localStorage.getItem('gemini_chat_history') || '[]')`.
A missing entry (`getItem` returns `null`) and the empty string are both
falsy, so they fall back to `'[]'`; any other stored string goes to
`JSON.parse` unprotected — a parse error propagates out of `initApp`. -/
def loadHistory (blob : Option String) : Except Unit Json :=
  parseJson
    (match blob with
     | none => "[]"
     | some s => if s = "" then "[]" else s)

/-! ### The JSON shape of the persisted records

`JSON.stringify(history)` serializes each item as an object whose members
appear in property-creation order (src/index.tsx lines 281-287):
`id`, `prompt`, `response`, `sources` (omitted when `undefined`),
`timestamp`.  Each source is `{uri, title}` (line 273). -/

def encodeSource (s : Source) : Json :=
  .obj [("uri", .str s.uri), ("title", .str s.title)]

def encodeItem (h : HistoryItem) : Json :=
  .obj ([("id", .str h.id), ("prompt", .str h.prompt), ("response", .str h.response)]
    ++ (match h.sources with
        | some l => [("sources", .arr (l.map encodeSource))]
        | none => [])
    ++ [("timestamp", .num h.timestamp)])

def encodeHistory (l : List HistoryItem) : Json := .arr (l.map encodeItem)

/-- The string `JSON.stringify(history)` writes to `localStorage`
(src/index.tsx line 289). -/
def persistString (l : List HistoryItem) : String := stringify (encodeHistory l)

/-- Property access on a parsed JSON object (`item.id`, `item.prompt`, …):
the first member with the given key, as JavaScript keeps the first
occurrence when later keys repeat — our objects never repeat keys. -/
def jLookup (ms : List (String × Json)) (k : String) : Option Json :=
  (ms.find? (fun m => m.1 = k)).map (fun m => m.2)

/-- Reading one citation out of a parsed object. -/
def decodeSource : Json → Option Source
  | .obj ms =>
    (match jLookup ms "uri", jLookup ms "title" with
     | some (.str u), some (.str t) => some ⟨u, t⟩
     | _, _ => none)
  | _ => none

/-- Reading one history item out of a parsed object, mirroring the typed
field accesses the TypeScript performs on parsed entries. -/
def decodeItem : Json → Option HistoryItem
  | .obj ms =>
    (match jLookup ms "id", jLookup ms "prompt", jLookup ms "response",
           jLookup ms "timestamp" with
     | some (.str i), some (.str p), some (.str r), some (.num t) =>
       (match jLookup ms "sources" with
        | none => some ⟨i, p, r, none, t⟩
        | some (.arr ss) =>
          (match ss.mapM decodeSource with
           | some srcs => some ⟨i, p, r, some srcs, t⟩
           | none => none)
        | some _ => none)
     | _, _, _, _ => none)
  | _ => none

/-- Reading the whole persisted list back. -/
def decodeHistory : Json → Option (List HistoryItem)
  | .arr xs => xs.mapM decodeItem
  | _ => none

/-! ### Round trip of the string escaping -/

theorem char_ne_of_toNat_ne {c d : Char} (h : c.toNat ≠ d.toNat) : c ≠ d :=
  fun he => h (he ▸ rfl)

theorem isDigitChar_toNat {c : Char} (h : isDigitChar c = true) :
    48 ≤ c.toNat ∧ c.toNat ≤ 57 := by
  simpa [isDigitChar] using h

theorem hexVal_hexDigitChar (m : Nat) (h : m < 16) :
    hexVal (hexDigitChar m) = some m := by
  interval_cases m <;> decide

theorem parseStringBody_esc (c : Char) (cs l rest : List Char)
    (h : parseStringBody cs = .ok (l, rest)) :
    parseStringBody (escChar c ++ cs) = .ok (c :: l, rest) := by
  unfold escChar
  split_ifs with h1 h2 h3 h4 h5 h6 h7 h8
  · subst h1
    simp only [List.cons_append, List.nil_append]
    unfold parseStringBody
    simp [h, Except.map]
  · subst h2
    simp only [List.cons_append, List.nil_append]
    unfold parseStringBody
    simp [h, Except.map]
  · have hc : Char.ofNat 8 = c := by rw [← h3, Char.ofNat_toNat]
    simp only [List.cons_append, List.nil_append]
    unfold parseStringBody
    simp [h, Except.map]
    exact hc
  · have hc : Char.ofNat 9 = c := by rw [← h4, Char.ofNat_toNat]
    simp only [List.cons_append, List.nil_append]
    unfold parseStringBody
    simp [h, Except.map]
    exact hc
  · have hc : Char.ofNat 10 = c := by rw [← h5, Char.ofNat_toNat]
    simp only [List.cons_append, List.nil_append]
    unfold parseStringBody
    simp [h, Except.map]
    exact hc
  · have hc : Char.ofNat 12 = c := by rw [← h6, Char.ofNat_toNat]
    simp only [List.cons_append, List.nil_append]
    unfold parseStringBody
    simp [h, Except.map]
    exact hc
  · have hc : Char.ofNat 13 = c := by rw [← h7, Char.ofNat_toNat]
    simp only [List.cons_append, List.nil_append]
    unfold parseStringBody
    simp [h, Except.map]
    exact hc
  · have hv1 : hexVal '0' = some 0 := by decide
    have hv2 : hexVal (hexDigitChar (c.toNat / 16)) = some (c.toNat / 16) :=
      hexVal_hexDigitChar _ (by omega)
    have hv3 : hexVal (hexDigitChar (c.toNat % 16)) = some (c.toNat % 16) :=
      hexVal_hexDigitChar _ (by omega)
    have hval : ((0 * 16 + 0) * 16 + c.toNat / 16) * 16 + c.toNat % 16 = c.toNat := by
      omega
    simp only [List.cons_append, List.nil_append]
    unfold parseStringBody
    simp [h, Except.map, hv1, hv2, hv3, hval, Char.ofNat_toNat]
    rw [show c.toNat / 16 * 16 + c.toNat % 16 = c.toNat by omega, Char.ofNat_toNat]
  · simp only [List.singleton_append]
    unfold parseStringBody
    rw [if_neg h1, if_neg h2, h]
    rfl

theorem parseStringBody_flatMap (l cs : List Char) :
    parseStringBody (l.flatMap escChar ++ ('"' :: cs)) = .ok (l, cs) := by
  induction l with
  | nil =>
    simp only [List.flatMap_nil, List.nil_append]
    unfold parseStringBody
    simp
  | cons c t ih =>
    rw [List.flatMap_cons, List.append_assoc]
    exact parseStringBody_esc c _ _ _ ih

/-! ### Plumbing facts for the parser round trip -/

/-- Input whose first character (if any) is not a digit: a JSON number
ends exactly there. -/
def HeadNotDigit (cs : List Char) : Prop :=
  ∀ c, cs.head? = some c → isDigitChar c = false

theorem headNotDigit_nil : HeadNotDigit [] := by
  intro c h
  simp at h

theorem headNotDigit_cons {c : Char} (h : isDigitChar c = false) (cs : List Char) :
    HeadNotDigit (c :: cs) := by
  intro d hd
  simp at hd
  rwa [← hd]

theorem natDigits_cons (n : Nat) :
    ∃ d ds, natDigits n = d :: ds ∧ isDigitChar d = true := by
  cases hd : natDigits n with
  | nil => exact absurd hd (natDigits_ne_nil n)
  | cons d ds =>
    exact ⟨d, ds, rfl, mem_natDigits_isDigit n d (hd ▸ List.mem_cons_self d ds)⟩

theorem takeWhile_append_all {p : Char → Bool} {l : List Char} (cs : List Char)
    (hl : ∀ c ∈ l, p c = true) : (l ++ cs).takeWhile p = l ++ cs.takeWhile p := by
  induction l with
  | nil => simp
  | cons c t ih =>
    rw [List.cons_append, List.takeWhile_cons, hl c (List.mem_cons_self c t)]
    simp only [if_true]
    rw [ih (fun d hd => hl d (List.mem_cons_of_mem c hd)), List.cons_append]

theorem dropWhile_append_all {p : Char → Bool} {l : List Char} (cs : List Char)
    (hl : ∀ c ∈ l, p c = true) : (l ++ cs).dropWhile p = cs.dropWhile p := by
  induction l with
  | nil => simp
  | cons c t ih =>
    rw [List.cons_append, List.dropWhile_cons, hl c (List.mem_cons_self c t)]
    simp only [if_true]
    exact ih (fun d hd => hl d (List.mem_cons_of_mem c hd))

theorem takeWhile_of_headNotDigit {cs : List Char} (h : HeadNotDigit cs) :
    cs.takeWhile isDigitChar = [] := by
  cases cs with
  | nil => simp
  | cons c t =>
    rw [List.takeWhile_cons, h c rfl]
    simp

theorem dropWhile_of_headNotDigit {cs : List Char} (h : HeadNotDigit cs) :
    cs.dropWhile isDigitChar = cs := by
  cases cs with
  | nil => simp
  | cons c t =>
    rw [List.dropWhile_cons, h c rfl]
    simp

theorem parseNumber_natDigits (n : Nat) (cs : List Char) (hcs : HeadNotDigit cs) :
    parseNumber (natDigits n ++ cs) = .ok (n, cs) := by
  unfold parseNumber
  rw [takeWhile_append_all cs (mem_natDigits_isDigit n), takeWhile_of_headNotDigit hcs,
    List.append_nil, dropWhile_append_all cs (mem_natDigits_isDigit n),
    dropWhile_of_headNotDigit hcs]
  obtain ⟨d, ds, hd, _⟩ := natDigits_cons n
  rw [hd]
  have : digitsToNat (d :: ds) = n := by rw [← hd, digitsToNat_natDigits]
  simp [this]

theorem skipWs_cons {c : Char} (h : isWsChar c = false) (cs : List Char) :
    skipWs (c :: cs) = c :: cs := by
  rw [skipWs, List.dropWhile_cons, h]
  simp

theorem isWsChar_of_digit {c : Char} (h : isDigitChar c = true) : isWsChar c = false := by
  have := isDigitChar_toNat h
  simp [isWsChar]
  omega

theorem jsonEmit_shape (j : Json) :
    ∃ hd tl, jsonEmit j = hd :: tl ∧ isWsChar hd = false ∧ hd ≠ ']' := by
  cases j with
  | null => exact ⟨'n', _, rfl, by decide, by decide⟩
  | bool b => cases b with
    | true => exact ⟨'t', _, rfl, by decide, by decide⟩
    | false => exact ⟨'f', _, rfl, by decide, by decide⟩
  | num n =>
    obtain ⟨d, ds, hd, hdig⟩ := natDigits_cons n
    refine ⟨d, ds, by simp [jsonEmit, hd], isWsChar_of_digit hdig, ?_⟩
    have := isDigitChar_toNat hdig
    have h93 : (']' : Char).toNat = 93 := rfl
    exact char_ne_of_toNat_ne (by omega)
  | str s =>
    exact ⟨'"', s.data.flatMap escChar ++ ['"'], by simp [jsonEmit, quoteString],
      by decide, by decide⟩
  | arr xs => exact ⟨'[', emitArrBody xs, by simp [jsonEmit], by decide, by decide⟩
  | obj ms => exact ⟨'{', emitObjBody ms, by simp [jsonEmit], by decide, by decide⟩

theorem jsonEmit_length_pos (j : Json) : 0 < (jsonEmit j).length := by
  obtain ⟨hd, tl, he, -, -⟩ := jsonEmit_shape j
  simp [he]

theorem skipWs_jsonEmit (j : Json) (cs : List Char) :
    skipWs (jsonEmit j ++ cs) = jsonEmit j ++ cs := by
  obtain ⟨hd, tl, he, hws, -⟩ := jsonEmit_shape j
  rw [he, List.cons_append, skipWs_cons hws]

theorem emitArrRest_headNotDigit (t : List Json) (cs : List Char) :
    HeadNotDigit (emitArrRest t ++ cs) := by
  cases t with
  | nil => exact headNotDigit_cons (by decide) _
  | cons x t' => exact headNotDigit_cons (by decide) _

theorem emitObjRest_headNotDigit (t : List (String × Json)) (cs : List Char) :
    HeadNotDigit (emitObjRest t ++ cs) := by
  cases t with
  | nil => exact headNotDigit_cons (by decide) _
  | cons m t' => exact headNotDigit_cons (by decide) _

/-- The round-trip property of the value parser at every sufficient fuel:
what `jsonEmit` produced, `val` parses back, consuming exactly it. -/
def ValRT (j : Json) : Prop :=
  ∀ f cs, (jsonEmit j ++ cs).length < f → HeadNotDigit cs →
    (mkJParsers f).val (jsonEmit j ++ cs) = .ok (j, cs)

theorem member_rt (k : String) (v : Json) (f : Nat) (cs : List Char)
    (hv : ValRT v) (hf : (jsonEmit v ++ cs).length < f) (hcs : HeadNotDigit cs) :
    parseMember (mkJParsers f).val (emitMember (k, v) ++ cs) = .ok ((k, v), cs) := by
  have hshape : emitMember (k, v) ++ cs
      = '"' :: (k.data.flatMap escChar ++ ('"' :: (':' :: (jsonEmit v ++ cs)))) := by
    simp [emitMember, quoteString]
  rw [hshape]
  unfold parseMember
  have hq : isWsChar '"' = false := by decide
  have hcolon : isWsChar ':' = false := by decide
  rw [skipWs_cons hq]
  split
  · next rest heq =>
    have hrest : k.data.flatMap escChar ++ ('"' :: (':' :: (jsonEmit v ++ cs))) = rest := by
      injection heq
    subst hrest
    rw [parseStringBody_flatMap]
    dsimp only
    rw [skipWs_cons hcolon]
    split
    · next r3 heq2 =>
      have hr3 : jsonEmit v ++ cs = r3 := by injection heq2
      subst hr3
      rw [hv f cs hf hcs]
      rfl
    · next hne => exact absurd rfl (hne (jsonEmit v ++ cs))
  · next hne => exact absurd rfl (hne _)

theorem arrRest_rt (t : List Json) (helem : ∀ x ∈ t, ValRT x) :
    ∀ f cs, (emitArrRest t ++ cs).length < f → HeadNotDigit cs →
      (mkJParsers f).arrTail (emitArrRest t ++ cs) = .ok (t, cs) := by
  induction t with
  | nil =>
    intro f cs hf hcs
    cases f with
    | zero => simp at hf
    | succ g =>
      rw [show emitArrRest ([] : List Json) ++ cs = ']' :: cs by simp [emitArrRest]]
      unfold mkJParsers
      dsimp only
      have hws : isWsChar ']' = false := by decide
      rw [skipWs_cons hws]
      split
      · next rest heq =>
        have : cs = rest := by injection heq
        subst this
        rfl
      · next rest heq =>
        injection heq with h1 h2
        exact absurd h1 (by decide)
      · next hne1 hne2 => exact absurd rfl (hne1 cs)
  | cons x t' ih =>
    intro f cs hf hcs
    cases f with
    | zero => simp at hf
    | succ g =>
      have hshape : emitArrRest (x :: t') ++ cs
          = ',' :: (jsonEmit x ++ (emitArrRest t' ++ cs)) := by
        simp [emitArrRest]
      rw [hshape] at hf ⊢
      have hxpos := jsonEmit_length_pos x
      have hlenx : (jsonEmit x ++ (emitArrRest t' ++ cs)).length < g := by
        simp only [List.length_append, List.length_cons] at hf ⊢
        omega
      have hlent : (emitArrRest t' ++ cs).length < g := by
        simp only [List.length_append, List.length_cons] at hf hlenx ⊢
        omega
      unfold mkJParsers
      dsimp only
      have hcomma : isWsChar ',' = false := by decide
      rw [skipWs_cons hcomma]
      split
      · next rest heq =>
        injection heq with h1 h2
        exact absurd h1 (by decide)
      · next rest heq =>
        have hx : jsonEmit x ++ (emitArrRest t' ++ cs) = rest := by injection heq
        subst hx
        rw [helem x (List.mem_cons_self x t') g (emitArrRest t' ++ cs) hlenx
          (emitArrRest_headNotDigit t' cs)]
        show (do
            let d1 ← (mkJParsers g).arrTail (emitArrRest t' ++ cs)
            Except.ok (x :: d1.1, d1.2) : Except Unit (List Json × List Char))
          = Except.ok (x :: t', cs)
        rw [ih (fun y hy => helem y (List.mem_cons_of_mem x hy)) g cs hlent hcs]
        rfl
      · next hne1 hne2 => exact absurd rfl (hne2 (jsonEmit x ++ (emitArrRest t' ++ cs)))

theorem objRest_rt (t : List (String × Json)) (helem : ∀ m ∈ t, ValRT m.2) :
    ∀ f cs, (emitObjRest t ++ cs).length < f → HeadNotDigit cs →
      (mkJParsers f).objTail (emitObjRest t ++ cs) = .ok (t, cs) := by
  induction t with
  | nil =>
    intro f cs hf hcs
    cases f with
    | zero => simp at hf
    | succ g =>
      rw [show emitObjRest ([] : List (String × Json)) ++ cs = '}' :: cs by
        simp [emitObjRest]]
      unfold mkJParsers
      dsimp only
      have hws : isWsChar '}' = false := by decide
      rw [skipWs_cons hws]
      split
      · next rest heq =>
        have : cs = rest := by injection heq
        subst this
        rfl
      · next rest heq =>
        injection heq with h1 h2
        exact absurd h1 (by decide)
      · next hne1 hne2 => exact absurd rfl (hne1 cs)
  | cons m t' ih =>
    intro f cs hf hcs
    obtain ⟨k, v⟩ := m
    cases f with
    | zero => simp at hf
    | succ g =>
      have hshape : emitObjRest ((k, v) :: t') ++ cs
          = ',' :: (emitMember (k, v) ++ (emitObjRest t' ++ cs)) := by
        simp [emitObjRest]
      rw [hshape] at hf ⊢
      have hmshape : emitMember (k, v) ++ (emitObjRest t' ++ cs)
          = quoteString k ++ (':' :: (jsonEmit v ++ (emitObjRest t' ++ cs))) := by
        simp [emitMember]
      have hvpos := jsonEmit_length_pos v
      have hlenv : (jsonEmit v ++ (emitObjRest t' ++ cs)).length < g := by
        simp only [hmshape, List.length_append, List.length_cons, quoteString,
          List.length_append] at hf ⊢
        omega
      have hlent : (emitObjRest t' ++ cs).length < g := by
        simp only [List.length_append] at hlenv ⊢
        omega
      unfold mkJParsers
      dsimp only
      have hcomma : isWsChar ',' = false := by decide
      rw [skipWs_cons hcomma]
      split
      · next rest heq =>
        injection heq with h1 h2
        exact absurd h1 (by decide)
      · next rest heq =>
        have hx : emitMember (k, v) ++ (emitObjRest t' ++ cs) = rest := by injection heq
        subst hx
        rw [member_rt k v g (emitObjRest t' ++ cs)
          (fun f' cs' hf' hcs' => helem (k, v) (List.mem_cons_self (k, v) t') f' cs' hf' hcs')
          hlenv (emitObjRest_headNotDigit t' cs)]
        show (do
            let d1 ← (mkJParsers g).objTail (emitObjRest t' ++ cs)
            Except.ok ((k, v) :: d1.1, d1.2) : Except Unit (List (String × Json) × List Char))
          = Except.ok ((k, v) :: t', cs)
        rw [ih (fun y hy => helem y (List.mem_cons_of_mem (k, v) hy)) g cs hlent hcs]
        rfl
      · next hne1 hne2 =>
        exact absurd rfl (hne2 (emitMember (k, v) ++ (emitObjRest t' ++ cs)))

theorem val_rt_aux : ∀ N j, sizeOf j ≤ N → ValRT j := by
  intro N
  induction N using Nat.strong_induction_on with
  | _ N ihN =>
    intro j hsz f cs hf hcs
    cases f with
    | zero => simp at hf
    | succ g =>
    cases j with
    | null =>
      rw [show jsonEmit .null ++ cs = 'n' :: ('u' :: 'l' :: 'l' :: cs) by simp [jsonEmit]]
      unfold mkJParsers
      dsimp only
      have hn : isWsChar 'n' = false := by decide
      rw [skipWs_cons hn]
      simp [dropLit, Except.map]
    | bool b =>
      cases b with
      | true =>
        rw [show jsonEmit (.bool true) ++ cs = 't' :: ('r' :: 'u' :: 'e' :: cs) by
          simp [jsonEmit]]
        unfold mkJParsers
        dsimp only
        have ht : isWsChar 't' = false := by decide
        rw [skipWs_cons ht]
        simp [dropLit, Except.map]
      | false =>
        rw [show jsonEmit (.bool false) ++ cs = 'f' :: ('a' :: 'l' :: 's' :: 'e' :: cs) by
          simp [jsonEmit]]
        unfold mkJParsers
        dsimp only
        have hfc : isWsChar 'f' = false := by decide
        rw [skipWs_cons hfc]
        simp [dropLit, Except.map]
    | num n =>
      obtain ⟨d, ds, hd, hdig⟩ := natDigits_cons n
      have hrange := isDigitChar_toNat hdig
      rw [show jsonEmit (.num n) ++ cs = d :: (ds ++ cs) by simp [jsonEmit, hd]]
      unfold mkJParsers
      dsimp only
      rw [skipWs_cons (isWsChar_of_digit hdig)]
      have e1 : ¬ d = '"' := char_ne_of_toNat_ne (by
        have : ('"' : Char).toNat = 34 := rfl
        omega)
      have e2 : ¬ d = 'n' := char_ne_of_toNat_ne (by
        have : ('n' : Char).toNat = 110 := rfl
        omega)
      have e3 : ¬ d = 't' := char_ne_of_toNat_ne (by
        have : ('t' : Char).toNat = 116 := rfl
        omega)
      have e4 : ¬ d = 'f' := char_ne_of_toNat_ne (by
        have : ('f' : Char).toNat = 102 := rfl
        omega)
      have e5 : ¬ d = '[' := char_ne_of_toNat_ne (by
        have : ('[' : Char).toNat = 91 := rfl
        omega)
      have e6 : ¬ d = '{' := char_ne_of_toNat_ne (by
        have : ('{' : Char).toNat = 123 := rfl
        omega)
      dsimp only
      rw [if_neg e1, if_neg e2, if_neg e3, if_neg e4, if_neg e5, if_neg e6]
      rw [show d :: (ds ++ cs) = natDigits n ++ cs by rw [hd]; rfl]
      rw [parseNumber_natDigits n cs hcs]
      rfl
    | str s =>
      rw [show jsonEmit (.str s) ++ cs
          = '"' :: (s.data.flatMap escChar ++ ('"' :: cs)) by
        simp [jsonEmit, quoteString]]
      unfold mkJParsers
      dsimp only
      have hq : isWsChar '"' = false := by decide
      rw [skipWs_cons hq]
      dsimp only
      rw [if_pos rfl, parseStringBody_flatMap]
      rfl
    | arr xs =>
      cases xs with
      | nil =>
        rw [show jsonEmit (.arr []) ++ cs = '[' :: (']' :: cs) by
          simp [jsonEmit, emitArrBody]]
        unfold mkJParsers
        dsimp only
        have hlb : isWsChar '[' = false := by decide
        have hrb : isWsChar ']' = false := by decide
        rw [skipWs_cons hlb]
        dsimp only
        rw [if_neg (show ¬ ('[' : Char) = '"' by decide),
          if_neg (show ¬ ('[' : Char) = 'n' by decide),
          if_neg (show ¬ ('[' : Char) = 't' by decide),
          if_neg (show ¬ ('[' : Char) = 'f' by decide),
          if_pos rfl, skipWs_cons hrb]
        split
        · next r2 heq =>
          have : cs = r2 := by injection heq
          subst this
          rfl
        · next hne => exact absurd rfl (hne cs)
      | cons x t =>
        have hsh : jsonEmit (.arr (x :: t)) ++ cs
            = '[' :: (jsonEmit x ++ (emitArrRest t ++ cs)) := by
          simp [jsonEmit, emitArrBody]
        rw [hsh] at hf ⊢
        have hxpos := jsonEmit_length_pos x
        have hlx : (jsonEmit x ++ (emitArrRest t ++ cs)).length < g := by
          simp only [List.length_append, List.length_cons] at hf ⊢
          omega
        have hlt : (emitArrRest t ++ cs).length < g := by
          simp only [List.length_append] at hlx ⊢
          omega
        have hszx : sizeOf x < N := by
          have h1 : sizeOf x < sizeOf (Json.arr (x :: t)) := by
            simp
            omega
          omega
        have hVx : ValRT x := ihN (sizeOf x) hszx x le_rfl
        have helem : ∀ y ∈ t, ValRT y := by
          intro y hy
          have h1 : sizeOf y < sizeOf (Json.arr (x :: t)) := by
            have h2 := List.sizeOf_lt_of_mem hy
            simp
            simp at h2
            omega
          exact ihN (sizeOf y) (by omega) y le_rfl
        unfold mkJParsers
        dsimp only
        have hlb : isWsChar '[' = false := by decide
        rw [skipWs_cons hlb]
        dsimp only
        rw [if_neg (show ¬ ('[' : Char) = '"' by decide),
          if_neg (show ¬ ('[' : Char) = 'n' by decide),
          if_neg (show ¬ ('[' : Char) = 't' by decide),
          if_neg (show ¬ ('[' : Char) = 'f' by decide),
          if_pos rfl, skipWs_jsonEmit x (emitArrRest t ++ cs)]
        split
        · next r2 heq =>
          obtain ⟨hd, tl, he, hws, hnrb⟩ := jsonEmit_shape x
          rw [he, List.cons_append] at heq
          injection heq with hh _
          exact absurd hh hnrb
        · next hne =>
          rw [hVx g (emitArrRest t ++ cs) hlx (emitArrRest_headNotDigit t cs)]
          show (do
              let d1 ← (mkJParsers g).arrTail (emitArrRest t ++ cs)
              Except.ok (Json.arr (x :: d1.1), d1.2) : Except Unit (Json × List Char))
            = Except.ok (Json.arr (x :: t), cs)
          rw [arrRest_rt t helem g cs hlt hcs]
          rfl
    | obj ms =>
      cases ms with
      | nil =>
        rw [show jsonEmit (.obj []) ++ cs = '{' :: ('}' :: cs) by
          simp [jsonEmit, emitObjBody]]
        unfold mkJParsers
        dsimp only
        have hlb : isWsChar '{' = false := by decide
        have hrb : isWsChar '}' = false := by decide
        rw [skipWs_cons hlb]
        dsimp only
        rw [if_neg (show ¬ ('{' : Char) = '"' by decide),
          if_neg (show ¬ ('{' : Char) = 'n' by decide),
          if_neg (show ¬ ('{' : Char) = 't' by decide),
          if_neg (show ¬ ('{' : Char) = 'f' by decide),
          if_neg (show ¬ ('{' : Char) = '[' by decide),
          if_pos rfl, skipWs_cons hrb]
        split
        · next r2 heq =>
          have : cs = r2 := by injection heq
          subst this
          rfl
        · next hne => exact absurd rfl (hne cs)
      | cons m t =>
        obtain ⟨k, v⟩ := m
        have hsh : jsonEmit (.obj ((k, v) :: t)) ++ cs
            = '{' :: (emitMember (k, v) ++ (emitObjRest t ++ cs)) := by
          simp [jsonEmit, emitObjBody]
        rw [hsh] at hf ⊢
        have hmem : emitMember (k, v) ++ (emitObjRest t ++ cs)
            = '"' :: (k.data.flatMap escChar
                ++ ('"' :: (':' :: (jsonEmit v ++ (emitObjRest t ++ cs))))) := by
          simp [emitMember, quoteString]
        have hqlen : (quoteString k).length = 2 + (k.data.flatMap escChar).length := by
          simp [quoteString]
          omega
        have hvpos := jsonEmit_length_pos v
        have hlenv : (jsonEmit v ++ (emitObjRest t ++ cs)).length < g := by
          have hml : (emitMember (k, v)).length
              = (quoteString k).length + 1 + (jsonEmit v).length := by
            simp [emitMember]
            omega
          simp only [List.length_append, List.length_cons, hml, hqlen] at hf ⊢
          omega
        have hlent : (emitObjRest t ++ cs).length < g := by
          simp only [List.length_append] at hlenv ⊢
          omega
        have hszv : sizeOf v < N := by
          have h1 : sizeOf v < sizeOf (Json.obj ((k, v) :: t)) := by
            simp
            omega
          omega
        have hVv : ValRT v := ihN (sizeOf v) hszv v le_rfl
        have helem : ∀ y ∈ t, ValRT y.2 := by
          intro y hy
          obtain ⟨yk, yv⟩ := y
          have h2 := List.sizeOf_lt_of_mem hy
          have h1 : sizeOf yv < sizeOf (Json.obj ((k, v) :: t)) := by
            simp
            simp at h2
            omega
          exact ihN (sizeOf yv) (by omega) yv le_rfl
        unfold mkJParsers
        dsimp only
        have hlb : isWsChar '{' = false := by decide
        have hq : isWsChar '"' = false := by decide
        rw [skipWs_cons hlb]
        dsimp only
        rw [if_neg (show ¬ ('{' : Char) = '"' by decide),
          if_neg (show ¬ ('{' : Char) = 'n' by decide),
          if_neg (show ¬ ('{' : Char) = 't' by decide),
          if_neg (show ¬ ('{' : Char) = 'f' by decide),
          if_neg (show ¬ ('{' : Char) = '[' by decide),
          if_pos rfl, hmem, skipWs_cons hq]
        split
        · next r2 heq =>
          injection heq with hh _
          exact absurd hh (by decide)
        · next hne =>
          rw [← hmem]
          rw [member_rt k v g (emitObjRest t ++ cs) hVv hlenv
            (emitObjRest_headNotDigit t cs)]
          show (do
              let d1 ← (mkJParsers g).objTail (emitObjRest t ++ cs)
              Except.ok (Json.obj ((k, v) :: d1.1), d1.2) : Except Unit (Json × List Char))
            = Except.ok (Json.obj ((k, v) :: t), cs)
          rw [objRest_rt t helem g cs hlent hcs]
          rfl

/-- What `JSON.stringify` wrote, `JSON.parse` reads back. -/
theorem parseJson_stringify (j : Json) : parseJson (stringify j) = .ok j := by
  unfold parseJson stringify
  have hdata : (String.mk (jsonEmit j)).data = jsonEmit j := rfl
  have hlen : (String.mk (jsonEmit j)).length = (jsonEmit j).length := rfl
  rw [hdata, hlen]
  have h := val_rt_aux (sizeOf j) j le_rfl ((jsonEmit j).length + 1) []
    (by simp) headNotDigit_nil
  rw [List.append_nil] at h
  rw [h]
  simp [skipWs]

/-! ### Decoding what was encoded -/

theorem decodeSource_encodeSource (s : Source) : decodeSource (encodeSource s) = some s := by
  rfl

theorem mapM_decodeSource (l : List Source) :
    (l.map encodeSource).mapM decodeSource = some l := by
  induction l with
  | nil => rfl
  | cons s t ih =>
    rw [List.map_cons, List.mapM_cons, decodeSource_encodeSource, ih]
    rfl

theorem decodeItem_encodeItem (h : HistoryItem) : decodeItem (encodeItem h) = some h := by
  obtain ⟨i, p, r, srcs, ts⟩ := h
  cases srcs with
  | none => rfl
  | some l =>
    show decodeItem (.obj [("id", .str i), ("prompt", .str p), ("response", .str r),
      ("sources", .arr (l.map encodeSource)), ("timestamp", .num ts)]) = _
    unfold decodeItem
    dsimp only
    have h1 : jLookup [("id", Json.str i), ("prompt", Json.str p), ("response", Json.str r),
        ("sources", Json.arr (l.map encodeSource)), ("timestamp", Json.num ts)] "id"
        = some (Json.str i) := rfl
    have h2 : jLookup [("id", Json.str i), ("prompt", Json.str p), ("response", Json.str r),
        ("sources", Json.arr (l.map encodeSource)), ("timestamp", Json.num ts)] "prompt"
        = some (Json.str p) := rfl
    have h3 : jLookup [("id", Json.str i), ("prompt", Json.str p), ("response", Json.str r),
        ("sources", Json.arr (l.map encodeSource)), ("timestamp", Json.num ts)] "response"
        = some (Json.str r) := rfl
    have h4 : jLookup [("id", Json.str i), ("prompt", Json.str p), ("response", Json.str r),
        ("sources", Json.arr (l.map encodeSource)), ("timestamp", Json.num ts)] "timestamp"
        = some (Json.num ts) := rfl
    have h5 : jLookup [("id", Json.str i), ("prompt", Json.str p), ("response", Json.str r),
        ("sources", Json.arr (l.map encodeSource)), ("timestamp", Json.num ts)] "sources"
        = some (Json.arr (l.map encodeSource)) := rfl
    rw [h1, h2, h3, h4]
    dsimp only
    rw [h5]
    dsimp only
    rw [mapM_decodeSource]

theorem decodeHistory_encodeHistory (l : List HistoryItem) :
    decodeHistory (encodeHistory l) = some l := by
  show (l.map encodeItem).mapM decodeItem = some l
  induction l with
  | nil => rfl
  | cons h t ih =>
    rw [List.map_cons, List.mapM_cons, decodeItem_encodeItem, ih]
    rfl

/-! ### Storage writes with their outcome made explicit

`localStorage.setItem` can throw (e.g. quota exceeded).  The submit
handler's write sits inside its `try { … } catch` (src/index.tsx lines
252-299), but `deleteHistoryItem`'s write (line 124) has no handler, so a
throwing write escapes.  `writeOk` is the write's outcome; `.error`
carries the in-memory state at the moment the exception escapes. -/

/-- `deleteHistoryItem` with the `setItem` outcome explicit: the filter has
already mutated the in-memory array when the write throws, and the
`resetUI`/re-render tail is skipped — the exception propagates out of the
click handler uncaught. -/
def deleteHistoryItemE (id : String) (s : AppState) (writeOk : Bool) :
    Except AppState AppState :=
  let s' := { s with history := s.history.filter (fun h => h.id ≠ id) }
  if writeOk then .ok (if s'.currentViewedId = some id then resetUI s' else s') else .error s'

/-- The submit handler's record-persist step with the `setItem` outcome
explicit: `history.push` has happened; a throwing write is caught by the
handler's `catch`, so the handler returns normally either way, the new
record staying in memory. -/
def submitCompleteE (prompt response : String) (sources : List Source)
    (nowId nowTs : Nat) (s : AppState) (writeOk : Bool) : Except Unit AppState :=
  .ok { s with history := s.history ++ [mkHistoryItem prompt response sources nowId nowTs] }

/-! ### Stability of the display sort

The standard stability characterisation: for every timestamp value, the
subsequence of records carrying it is the same, in the same order, before
and after sorting.  Together with the permutation and sortedness facts
this pins the sorted output down uniquely. -/

theorem filter_ts_eq_nil_of_lt {t : Nat} {l : List HistoryItem}
    (hall : ∀ y ∈ l, y.timestamp < t) :
    l.filter (fun r => r.timestamp = t) = [] := by
  induction l with
  | nil => rfl
  | cons h a ih =>
    have hh : ¬ h.timestamp = t := by
      have := hall h (List.mem_cons_self h a)
      omega
    rw [List.filter_cons]
    simp only [hh, decide_eq_true_eq, if_neg, decide_False, Bool.false_eq_true, if_false]
    exact ih (fun y hy => hall y (List.mem_cons_of_mem h hy))

theorem insertDesc_filter_eq {t : Nat} (x : HistoryItem) (acc : List HistoryItem)
    (hx : x.timestamp = t)
    (hacc : acc.Pairwise (fun a b => b.timestamp ≤ a.timestamp)) :
    (insertDesc x acc).filter (fun r => r.timestamp = t)
      = acc.filter (fun r => r.timestamp = t) ++ [x] := by
  induction acc with
  | nil => simp [insertDesc, hx]
  | cons h a ih =>
    rw [List.pairwise_cons] at hacc
    unfold insertDesc
    split
    · next hgt =>
      have hh : ¬ h.timestamp = t := by omega
      have hrest : ∀ y ∈ a, y.timestamp < t := fun y hy => by
        have := hacc.1 y hy
        omega
      simp [List.filter_cons, hx, hh, filter_ts_eq_nil_of_lt hrest]
    · next hle =>
      by_cases hh : h.timestamp = t <;>
        simp [List.filter_cons, hh, ih hacc.2]

theorem insertDesc_filter_ne {t : Nat} (x : HistoryItem) (acc : List HistoryItem)
    (hx : ¬ x.timestamp = t) :
    (insertDesc x acc).filter (fun r => r.timestamp = t)
      = acc.filter (fun r => r.timestamp = t) := by
  induction acc with
  | nil => simp [insertDesc, hx]
  | cons h a ih =>
    unfold insertDesc
    split
    · next hgt => simp [List.filter_cons, hx]
    · next hle =>
      by_cases hh : h.timestamp = t <;> simp [List.filter_cons, hh, ih]

/-- Stability: the display sort keeps the original relative order of all
records sharing a timestamp. -/
theorem sortedHistory_stable (l : List HistoryItem) (t : Nat) :
    (sortedHistory l).filter (fun r => r.timestamp = t)
      = l.filter (fun r => r.timestamp = t) := by
  suffices h : ∀ acc, acc.Pairwise (fun a b => b.timestamp ≤ a.timestamp) →
      (l.foldl (fun acc x => insertDesc x acc) acc).filter (fun r => r.timestamp = t)
        = acc.filter (fun r => r.timestamp = t) ++ l.filter (fun r => r.timestamp = t) by
    simpa using h [] (by simp)
  induction l with
  | nil =>
    intro acc hacc
    simp
  | cons x l' ih =>
    intro acc hacc
    rw [List.foldl_cons, ih (insertDesc x acc) (insertDesc_sorted x acc hacc)]
    by_cases hx : x.timestamp = t
    · rw [insertDesc_filter_eq x acc hx hacc, List.filter_cons]
      simp [hx]
    · rw [insertDesc_filter_ne x acc hx, List.filter_cons]
      simp [hx]

/-! ## The claims -/

/-- C1 counterexample: record an exchange, view it, then delete it with
the line-124 `setItem` throwing.  The line-123 filter has already removed
the record and the exception skips the line-125 reset, so the run ends
with `currentViewedId` pointing at a record no longer in the store — a
reachable dangling-selection state. -/
theorem C1_dangling_after_failed_delete_write :
    ¬ SelectionValid (run
      [Op.submitComplete "p" "r" [] 100 100,
       Op.view (natToStr 100),
       Op.deleteItem (natToStr 100) false]
      (initState [])) := by
  decide

/-- C1 amended: along any sequence of view / delete / clear-all /
new-chat / record events whose uncaught storage writes all succeed, a set
selection always references a record present in the store; deleting the
selected id with a succeeding write, or a confirmed clear-all, resets the
selection to none in that same step.  Only a delete whose write throws
escapes this: it leaves the filtered store with the selection still set. -/
theorem C1_selection_valid_when_writes_succeed :
    (∀ ops h₀, (∀ o ∈ ops, opWriteOk o = true) →
      SelectionValid (run ops (initState h₀))) ∧
    (∀ s id, s.currentViewedId = some id →
      (deleteHistoryItemW id true s).currentViewedId = none) ∧
    (∀ s, clearAllHistory true s = { history := [], currentViewedId := none }) := by
  refine ⟨fun ops h₀ hok => selectionValid_run ops _ hok (selectionValid_initState h₀),
    ?_, ?_⟩
  · intro s id hid
    rw [deleteHistoryItemW_true, deleteHistoryItem_def, if_pos hid]
  · intro s
    rfl

/-- Witness for C1 amended at a concrete run (view then delete with a
succeeding write) and a concrete selected deletion. -/
theorem C1_selection_valid_witness :
    SelectionValid (run [Op.view "7", Op.deleteItem "7" true]
      (initState [⟨"7", "p", "r", none, 1⟩])) ∧
    (deleteHistoryItemW "7" true
      (AppState.mk [⟨"7", "p", "r", none, 1⟩] (some "7"))).currentViewedId = none :=
  ⟨C1_selection_valid_when_writes_succeed.1 [Op.view "7", Op.deleteItem "7" true]
      [⟨"7", "p", "r", none, 1⟩] (by decide),
   C1_selection_valid_when_writes_succeed.2.1
     (AppState.mk [⟨"7", "p", "r", none, 1⟩] (some "7")) "7" rfl⟩

/-- C2 counterexample: two completed exchanges recorded within the same
millisecond (`Date.now()` reads 100 for both) receive the same id
`"100"`, so the ids in the store are not pairwise distinct. -/
theorem C2_ids_collide_counterexample :
    ¬ (((run [Op.submitComplete "p1" "r1" [] 100 100,
              Op.submitComplete "p2" "r2" [] 100 100]
          (initState [])).history.map (fun r => r.id)).Nodup) := by
  decide

/-- C2 amended: the store grows by exactly one record per completed
exchange, and the ids are pairwise distinct provided the id clock readings
of the calls are pairwise distinct (same-millisecond calls collide, the
id being just `Date.now().toString()`). -/
theorem C2_ids_unique_of_distinct_clocks (calls : List ExchangeCall)
    (hids : (calls.map (fun c => c.nowId)).Nodup) :
    ((run (calls.map ExchangeCall.toOp) (initState [])).history.map
      (fun r => r.id)).Nodup ∧
    (run (calls.map ExchangeCall.toOp) (initState [])).history.length = calls.length := by
  have hh : (run (calls.map ExchangeCall.toOp) (initState [])).history
      = calls.map ExchangeCall.toItem := by
    rw [run_submits_history]
    rfl
  constructor
  · rw [hh, List.map_map]
    have hfun : ((fun r : HistoryItem => r.id) ∘ ExchangeCall.toItem)
        = (fun c : ExchangeCall => natToStr c.nowId) := rfl
    rw [hfun,
      show (calls.map fun c : ExchangeCall => natToStr c.nowId)
          = (calls.map fun c : ExchangeCall => c.nowId).map natToStr by
        rw [List.map_map]
        rfl]
    exact hids.map natToStr_injective
  · rw [hh, List.length_map]

/-- Witness for C2 amended: two calls in different milliseconds. -/
theorem C2_ids_unique_witness :
    ((run ([⟨"a", "b", [], 100, 100⟩, ⟨"c", "d", [], 101, 101⟩].map
        ExchangeCall.toOp) (initState [])).history.map (fun r => r.id)).Nodup ∧
    (run ([⟨"a", "b", [], 100, 100⟩, ⟨"c", "d", [], 101, 101⟩].map
        ExchangeCall.toOp) (initState [])).history.length
      = ([⟨"a", "b", [], 100, 100⟩, ⟨"c", "d", [], 101, 101⟩] : List ExchangeCall).length :=
  C2_ids_unique_of_distinct_clocks
    [⟨"a", "b", [], 100, 100⟩, ⟨"c", "d", [], 101, 101⟩] (by decide)

/-- C3 counterexample: a present but malformed blob (here `"{"`) is not
treated as an empty store — `JSON.parse` raises, modelled as `.error`. -/
theorem C3_malformed_blob_throws : loadHistory (some "\x7b") = .error () := rfl

/-- C3 amended: an absent entry and the empty string are falsy, fall back
to `'[]'` and load as the empty array; a malformed blob is not recovered —
the parse error propagates out of `initApp`. -/
theorem C3_load_behaviour :
    loadHistory none = .ok (.arr []) ∧
    loadHistory (some "") = .ok (.arr []) ∧
    loadHistory (some "\x7b") = .error () :=
  ⟨rfl, rfl, rfl⟩

/-- C4 counterexample: `clearAllHistory` performs the confirmation dialog
itself; when the user declines, the store (here one record) is not
emptied, refuting "clear-all from any prior state results in an empty
store" and "the operation performs no confirmation". -/
theorem C4_declined_clear_is_noop :
    (clearAllHistory false
      { history := [⟨"100", "p", "r", none, 5⟩], currentViewedId := some "100" }).history
      ≠ [] := by
  decide

/-- C4 amended: `clearAllHistory` asks for confirmation itself via
`confirm(...)`; when confirmed it empties the store and resets the
selection regardless of prior state, and when declined it leaves the
state untouched. -/
theorem C4_clearAll_behaviour (s : AppState) :
    clearAllHistory true s = { history := [], currentViewedId := none } ∧
    clearAllHistory false s = s :=
  ⟨rfl, rfl⟩

/-- C5 counterexample: two records with identical timestamps and ids
`"100"`, `"101"` inserted in that order display as `"100"` first — the
stable sort keeps insertion order on ties; the claimed id-descending
tie-break (item `"101"` first) does not hold. -/
theorem C5_tie_break_is_insertion_order :
    (sortedHistory [⟨"100", "p1", "r1", none, 5⟩, ⟨"101", "p2", "r2", none, 5⟩]).map
      (fun r => r.id) ≠ ["101", "100"] := by
  decide

/-- C5 amended: the projected history view is a permutation of the store,
ordered descending by `timestamp`; ties keep the original insertion order
(JavaScript's stable sort), not id order — stated in general as: for every
timestamp value, the subsequence of records carrying it is unchanged by
the sort (which, with the permutation and sortedness facts, determines
the output uniquely).  In particular, over two records with identical
`createdAt` and ids `"100"`, `"101"` inserted in that order, `"100"`
appears before `"101"`. -/
theorem C5_display_order (l : List HistoryItem) :
    (sortedHistory l).Perm l ∧
    (sortedHistory l).Pairwise (fun a b => b.timestamp ≤ a.timestamp) ∧
    (∀ t, (sortedHistory l).filter (fun r => r.timestamp = t)
      = l.filter (fun r => r.timestamp = t)) ∧
    (sortedHistory [⟨"100", "p1", "r1", none, 5⟩, ⟨"101", "p2", "r2", none, 5⟩]).map
      (fun r => r.id) = ["100", "101"] :=
  ⟨sortedHistory_perm l, sortedHistory_sorted l, sortedHistory_stable l, by decide⟩

/-- C6: deletion by id is idempotent on the whole state, and deleting an
id that no record carries leaves the store unchanged (a no-op, not an
error). -/
theorem C6_delete_idempotent (s : AppState) (id : String) :
    deleteHistoryItem id (deleteHistoryItem id s) = deleteHistoryItem id s ∧
    ((∀ r ∈ s.history, r.id ≠ id) → (deleteHistoryItem id s).history = s.history) := by
  have hfi : (s.history.filter (fun h => h.id ≠ id)).filter (fun h => h.id ≠ id)
      = s.history.filter (fun h => h.id ≠ id) := by
    rw [List.filter_filter]
    simp
  constructor
  · by_cases hsel : s.currentViewedId = some id
    · rw [deleteHistoryItem_def id s, if_pos hsel, deleteHistoryItem_def]
      rw [if_neg (by simp)]
      simp [hfi]
    · rw [deleteHistoryItem_def id s, if_neg hsel, deleteHistoryItem_def]
      rw [if_neg (by simpa using hsel)]
      simp [hfi]
  · intro hab
    have hself : s.history.filter (fun h => h.id ≠ id) = s.history :=
      List.filter_eq_self.mpr (fun r hr => by simpa using hab r hr)
    rw [deleteHistoryItem_def]
    split <;> exact hself

/-- Witness for C6 at a concrete store and an absent id. -/
theorem C6_delete_idempotent_witness :
    deleteHistoryItem "z" (deleteHistoryItem "z"
      { history := [⟨"1", "p", "r", none, 0⟩], currentViewedId := none })
      = deleteHistoryItem "z"
          { history := [⟨"1", "p", "r", none, 0⟩], currentViewedId := none } ∧
    (deleteHistoryItem "z"
      { history := [⟨"1", "p", "r", none, 0⟩], currentViewedId := none }).history
      = ({ history := [⟨"1", "p", "r", none, 0⟩],
           currentViewedId := none } : AppState).history :=
  ⟨(C6_delete_idempotent (AppState.mk [⟨"1", "p", "r", none, 0⟩] none) "z").1,
   (C6_delete_idempotent (AppState.mk [⟨"1", "p", "r", none, 0⟩] none) "z").2 (by decide)⟩

/-- C7: persist followed by load is the identity on record sequences,
including the empty one: the stored string parses back to exactly the
encoded array (the absent `sources` key being omitted in the encoding),
and reading the fields back recovers the records. -/
theorem C7_persist_load_roundtrip (items : List HistoryItem) :
    loadHistory (some (persistString items)) = .ok (encodeHistory items) ∧
    decodeHistory (encodeHistory items) = some items := by
  constructor
  · unfold loadHistory
    have hne : ¬ persistString items = "" := by
      intro h
      have hd := congrArg String.data h
      have hpos := jsonEmit_length_pos (encodeHistory items)
      unfold persistString stringify at hd
      simp at hd
      rw [hd] at hpos
      simp at hpos
    dsimp only
    rw [if_neg hne]
    exact parseJson_stringify (encodeHistory items)
  · exact decodeHistory_encodeHistory items

/-- C8 counterexample: with a 29-character prefix and U+1F600, the
part_000 label's cut at 30 UTF-16 code units lands inside the surrogate
pair: what precedes the ellipsis is not the encoding of any character
sequence, so the truncation does not preserve whole characters. -/
theorem C8_truncation_splits_surrogate :
    ¬ ∃ l : List Char,
      displayLabel (String.mk (List.replicate 29 'a' ++ ['😀']))
        = utf16OfChars l ++ ellipsisUnits := by
  rintro ⟨l, hl⟩
  have hcalc : displayLabel (String.mk (List.replicate 29 'a' ++ ['😀']))
      = (List.replicate 29 97 ++ [55357]) ++ ellipsisUnits := by decide
  rw [hcalc] at hl
  have hleq : utf16OfChars l = List.replicate 29 97 ++ [55357] :=
    (List.append_cancel_right hl).symm
  have hlast : (utf16OfChars l).getLast? = some 55357 := by
    rw [hleq]
    decide
  exact utf16OfChars_getLast_not_high l 55357 hlast (by decide)

/-- C8 amended: the part_000 label is bounded by 33 UTF-16 code units;
prompts of at most 30 units are shown unchanged, longer prompts are cut to
their first 30 code units with `'...'` appended — a cut at code-unit, not
character, granularity; the index.tsx variant shows the prompt in full. -/
theorem C8_label_behaviour (p : String) :
    (displayLabel p).length ≤ 33 ∧
    ((utf16Str p).length ≤ 30 → displayLabel p = utf16Str p) ∧
    (30 < (utf16Str p).length →
      displayLabel p = (utf16Str p).take 30 ++ ellipsisUnits) ∧
    displayLabelMain p = utf16Str p := by
  refine ⟨?_, ?_, ?_, rfl⟩
  · unfold displayLabel
    split
    · next h =>
      simp only [List.length_append, List.length_take, ellipsisUnits, List.length_cons,
        List.length_nil]
      omega
    · next h =>
      omega
  · intro hle
    unfold displayLabel
    rw [if_neg (by omega)]
  · intro hgt
    unfold displayLabel
    rw [if_pos hgt]

/-- Witness for C8 amended at a short prompt. -/
theorem C8_label_witness :
    (displayLabel "hi").length ≤ 33 ∧ displayLabel "hi" = utf16Str "hi" :=
  ⟨(C8_label_behaviour "hi").1, (C8_label_behaviour "hi").2.1 (by decide)⟩

/-- C9 counterexample: a failing `setItem` inside `deleteHistoryItem`
escapes as an exception instead of an explicit failure result — here the
record is already gone from the in-memory array when the write throws. -/
theorem C9_delete_write_failure_uncaught :
    deleteHistoryItemE "1" (AppState.mk [⟨"1", "p", "r", none, 0⟩] none) false
      = .error (AppState.mk [] none) := rfl

/-- C9 amended: the submit path's write failure is caught (the handler
returns normally, the new record staying in memory), but the delete
path's write and the initial load are unprotected: a throwing write or a
malformed blob propagates as an uncaught exception. -/
theorem C9_fault_propagation (s : AppState) (id p r : String) (src : List Source)
    (n₁ n₂ : Nat) :
    (∀ w, submitCompleteE p r src n₁ n₂ s w = .ok (submitComplete p r src n₁ n₂ s)) ∧
    deleteHistoryItemE id s true = .ok (deleteHistoryItem id s) ∧
    (deleteHistoryItemE id s false).isOk = false ∧
    (loadHistory (some "\x7b")).isOk = false :=
  ⟨fun _ => rfl, rfl, rfl, rfl⟩

/-- C10: deletion by id is exact and order-preserving on the remainder:
the surviving list is a sublist of the original (same records, same
relative order, fields untouched), keeps every record whose id differs,
and contains nothing else. -/
theorem C10_delete_frame (s : AppState) (id : String) :
    ((deleteHistoryItem id s).history).Sublist s.history ∧
    (∀ r ∈ s.history, r.id ≠ id → r ∈ (deleteHistoryItem id s).history) ∧
    (∀ r ∈ (deleteHistoryItem id s).history, r ∈ s.history ∧ r.id ≠ id) := by
  have hh : (deleteHistoryItem id s).history
      = s.history.filter (fun h => h.id ≠ id) := by
    rw [deleteHistoryItem_def]
    split <;> rfl
  refine ⟨?_, ?_, ?_⟩
  · rw [hh]
    exact List.filter_sublist _
  · intro r hr hne
    rw [hh]
    simp only [List.mem_filter, decide_eq_true_eq]
    exact ⟨hr, hne⟩
  · intro r hr
    rw [hh] at hr
    have := List.mem_filter.mp hr
    simpa using this

/-- Witness for C10: a record with a different id survives a concrete
deletion. -/
theorem C10_delete_frame_witness :
    (⟨"1", "p", "r", none, 0⟩ : HistoryItem)
      ∈ (deleteHistoryItem "z" (AppState.mk [⟨"1", "p", "r", none, 0⟩] none)).history :=
  (C10_delete_frame (AppState.mk [⟨"1", "p", "r", none, 0⟩] none) "z").2.1
    ⟨"1", "p", "r", none, 0⟩ (by decide) (by decide)
